import Mathlib

/- Verification development for the repository's two systems primitives:
   the lock-free SPSC ring buffer with its registry (src/Exercise4.c) and
   the fixed-capacity object pool with a byte-packed free bitmap
   (the `k2lib::Pool` template).  The C/C++ code is shallowly embedded:
   machine integers become `Nat`/`Int` with explicit wraparound where the
   source relies on it, byte memories become functions from offsets to
   byte values, and pointers become an explicit address datatype. -/

namespace RingBuf

/-- Modulus of the C `size_t` type (64-bit target). -/
def SZ : Nat := 2 ^ 64

/-- Unsigned `size_t` subtraction `a - b`, with wraparound. -/
def wsub (a b : Nat) : Nat := (a + SZ - b % SZ) % SZ

/-- `struct ring_buffer`: element size, element count, borrowed byte buffer,
and the monotonically increasing (mod 2^64) head and tail counters. -/
@[ext]
structure ring_buffer where
  s_elem : Nat
  n_elem : Nat
  buf : Nat → Nat
  head : Nat
  tail : Nat

/-- `rb_attr_t`; `buffer = none` models a NULL buffer pointer. -/
structure rb_attr_t where
  s_elem : Nat
  n_elem : Nat
  buffer : Option (Nat → Nat)

/-- A zero-initialized static `struct ring_buffer` entry (C static storage).
Its `buf` is the NULL pointer; it is modeled by an arbitrary byte memory,
which is sound because put/get never dereference it: a zeroed entry is
simultaneously full and empty, so both operations fail before the memcpy. -/
def rbZero : ring_buffer := ⟨0, 0, fun _ => 0, 0, 0⟩

/-- The registry: `static int idx` together with `static struct ring_buffer
_rb[RING_BUFFER_MAX]`, the array modeled as a function from indices. -/
@[ext]
structure Sys where
  idx : Nat
  rb : Nat → ring_buffer

/-- The program-start registry state: `idx = 0`, all entries zeroed. -/
def sys0 : Sys := ⟨0, fun _ => rbZero⟩

/-- The init-time check `((attr->n_elem - 1) & attr->n_elem) == 0`,
with the subtraction performed in `size_t` arithmetic. -/
def pow2chk (n : Nat) : Bool := Nat.land (wsub n 1) n == 0

/-- `ring_buffer_init`.  `rbd_nonnull` models the `rbd != NULL` test; the
attr pointer is `Option`; the result carries the error code, the new
registry state and the value written through `*rbd` (none if untouched). -/
def ring_buffer_init (MAX : Nat) (s : Sys) (rbd_nonnull : Bool)
    (attr : Option rb_attr_t) : Int × Sys × Option Nat :=
  match attr with
  | none => (-1, s, none)
  | some a =>
    if s.idx < MAX ∧ rbd_nonnull = true then
      match a.buffer with
      | none => (-1, s, none)
      | some b =>
        if 0 < a.s_elem then
          if pow2chk a.n_elem then
            (0,
             ⟨s.idx + 1,
              fun j => if j = s.idx then ⟨a.s_elem, a.n_elem, b, 0, 0⟩ else s.rb j⟩,
             some s.idx)
          else (-1, s, none)
        else (-1, s, none)
    else (-1, s, none)

/-- `_ring_buffer_full`: `(head - tail) == n_elem` in `size_t` arithmetic. -/
def _ring_buffer_full (rb : ring_buffer) : Bool := wsub rb.head rb.tail == rb.n_elem

/-- `_ring_buffer_empty`: `(head - tail) == 0` in `size_t` arithmetic. -/
def _ring_buffer_empty (rb : ring_buffer) : Bool := wsub rb.head rb.tail == 0

/-- `memcpy(&buf[offset], data, n)`: the bytes `offset..offset+n-1` now come
from `data`, everything else is unchanged. -/
def writeBytes (buf : Nat → Nat) (offset n : Nat) (data : List Nat) : Nat → Nat :=
  fun o => if offset ≤ o ∧ o < offset + n then data.getD (o - offset) 0 else buf o

/-- `memcpy(data, &buf[offset], n)`: the `n` bytes read out of the buffer. -/
def readBytes (buf : Nat → Nat) (offset n : Nat) : List Nat :=
  (List.range n).map fun j => buf (offset + j)

/-- The success branch of `ring_buffer_put`: copy `s_elem` bytes to offset
`(head & (n_elem - 1)) * s_elem`, then `head++`. -/
def putBody (rb : ring_buffer) (data : List Nat) : ring_buffer :=
  ⟨rb.s_elem, rb.n_elem,
   writeBytes rb.buf (Nat.land rb.head (wsub rb.n_elem 1) * rb.s_elem) rb.s_elem data,
   (rb.head + 1) % SZ, rb.tail⟩

/-- The success branch of `ring_buffer_get`: read `s_elem` bytes from offset
`(tail & (n_elem - 1)) * s_elem`, then `tail++`. -/
def getBody (rb : ring_buffer) : ring_buffer × List Nat :=
  (⟨rb.s_elem, rb.n_elem, rb.buf, rb.head, (rb.tail + 1) % SZ⟩,
   readBytes rb.buf (Nat.land rb.tail (wsub rb.n_elem 1) * rb.s_elem) rb.s_elem)

/-- `ring_buffer_put(rbd, data)`. -/
def ring_buffer_put (MAX : Nat) (s : Sys) (rbd : Nat) (data : List Nat) : Int × Sys :=
  if rbd < MAX ∧ _ring_buffer_full (s.rb rbd) = false then
    (0, ⟨s.idx, fun j => if j = rbd then putBody (s.rb rbd) data else s.rb j⟩)
  else (-1, s)

/-- `ring_buffer_get(rbd, data)`; the third component is what was copied
out through `data` (none if the call failed and `*data` was untouched). -/
def ring_buffer_get (MAX : Nat) (s : Sys) (rbd : Nat) : Int × Sys × Option (List Nat) :=
  if rbd < MAX ∧ _ring_buffer_empty (s.rb rbd) = false then
    (0, ⟨s.idx, fun j => if j = rbd then (getBody (s.rb rbd)).1 else s.rb j⟩,
     some (getBody (s.rb rbd)).2)
  else (-1, s, none)

/-- The effect of `ring_buffer_put` on the single addressed entry
(the body of the function once `rbd < RING_BUFFER_MAX` is known). -/
def rb_put (rb : ring_buffer) (data : List Nat) : Int × ring_buffer :=
  if _ring_buffer_full rb = false then (0, putBody rb data) else (-1, rb)

/-- The effect of `ring_buffer_get` on the single addressed entry. -/
def rb_get (rb : ring_buffer) : Int × ring_buffer × Option (List Nat) :=
  if _ring_buffer_empty rb = false then (0, (getBody rb).1, some (getBody rb).2)
  else (-1, rb, none)

/-- A sequence of `ring_buffer_put` calls; collects the error codes. -/
def putSeq (MAX rbd : Nat) : Sys → List (List Nat) → List Int × Sys
  | s, [] => ([], s)
  | s, d :: ds =>
    let r := ring_buffer_put MAX s rbd d
    let rest := putSeq MAX rbd r.2 ds
    (r.1 :: rest.1, rest.2)

/-- A sequence of `ring_buffer_get` calls; collects error codes and outputs. -/
def getSeq (MAX rbd : Nat) : Sys → Nat → List (Int × Option (List Nat)) × Sys
  | s, 0 => ([], s)
  | s, n + 1 =>
    let r := ring_buffer_get MAX s rbd
    let rest := getSeq MAX rbd r.2.1 n
    ((r.1, r.2.2) :: rest.1, rest.2)

/-- A registry holding exactly one live ring buffer in entry 0. -/
def sysW (rb : ring_buffer) : Sys := ⟨1, fun j => if j = 0 then rb else rbZero⟩

/-- The buffer contents after writing the payloads `ds` at consecutive
element slots `k, k+1, ...` (element size `sE`). -/
def bufFrom (sE : Nat) : (Nat → Nat) → Nat → List (List Nat) → Nat → Nat
  | b0, _, [] => b0
  | b0, k, d :: ds => bufFrom sE (writeBytes b0 (k * sE) sE d) (k + 1) ds

/-- Ring-buffer states reachable from a given initialized entry by put and
get calls (the calls that can touch the entry once it is registered). -/
inductive rbReach (rb0 : ring_buffer) : ring_buffer → Prop
  | init : rbReach rb0 rb0
  | put (d : List Nat) {rb} : rbReach rb0 rb → rbReach rb0 (rb_put rb d).2
  | get {rb} : rbReach rb0 rb → rbReach rb0 (rb_get rb).2.1

/-- The behavior claim C1 makes for one freshly initialized ring buffer of
element count `2^e` and element size `sE` inside registry entry 0: the
`2^e` puts of `ds` all succeed, the next put fails leaving the registry
unchanged, the `2^e` gets return exactly `ds` in insertion order, a further
get fails leaving the registry unchanged, and a subsequent put succeeds. -/
def C1Spec (MAX e sE : Nat) (b0 : Nat → Nat) (ds : List (List Nat))
    (dX dF : List Nat) : Prop :=
  let r0 := ring_buffer_init MAX sys0 true (some ⟨sE, 2 ^ e, some b0⟩)
  let rp := putSeq MAX 0 r0.2.1 ds
  let rg := getSeq MAX 0 rp.2 (2 ^ e)
  r0.1 = 0 ∧ r0.2.2 = some 0
  ∧ rp.1 = List.replicate (2 ^ e) 0
  ∧ ring_buffer_put MAX rp.2 0 dX = (-1, rp.2)
  ∧ rg.1 = ds.map (fun d => (0, some d))
  ∧ (ring_buffer_get MAX rg.2 0).1 = -1
  ∧ (ring_buffer_get MAX rg.2 0).2.1 = rg.2
  ∧ (ring_buffer_put MAX rg.2 0 dF).1 = 0

end RingBuf

namespace k2lib

/-- Pointer values as the pool can distinguish them: NULL, the address
`&elements[i]` of slot `i`, or an address different from every slot
(a pointer never issued by this pool). -/
inductive Ptr where
  | null : Ptr
  | slot : Nat → Ptr
  | foreign : Nat → Ptr
  deriving DecidableEq

/-- The mutable state of `Pool<T, SIZE>`: the byte memory reachable from
`&info[0]` (the pool owns offsets `0..NO_BYTES-1`; other offsets are the
surrounding object bytes, reachable by the unchecked negative-index bit
accesses), and `free_elements_cnt`.  `SIZE` is the template parameter and
is passed to each operation. -/
@[ext]
structure Pool where
  info : Int → Nat
  free_elements_cnt : Int

def BITS_IN_UINT8 : Nat := 8

/-- `NO_BYTES = (SIZE + BITS_IN_UINT8 - 1) / BITS_IN_UINT8`. -/
def NO_BYTES (SIZE : Nat) : Nat := (SIZE + BITS_IN_UINT8 - 1) / BITS_IN_UINT8

/-- The constructor `Pool()`: every `info` byte set to `0xFF`,
`free_elements_cnt = SIZE`.  `mem` is the surrounding memory, untouched. -/
def Pool.construct (SIZE : Nat) (mem : Int → Nat) : Pool :=
  ⟨fun o => if 0 ≤ o ∧ o < (NO_BYTES SIZE : Int) then 255 else mem o, (SIZE : Int)⟩

/- In `bit_index / BITS_IN_UINT8` and `bit_index % BITS_IN_UINT8` the
`int` operand is converted to `size_t` (the type of `BITS_IN_UINT8`), so
on the usual two's-complement LP64 target a negative `bit_index` yields
byte offset `bit_index.ediv 8` and bit position `bit_index.emod 8`
(Euclidean division), the offset reaching below `&info[0]`. -/

/-- `Pool::testBit`.  Only `bit_index >= SIZE` is guarded. -/
def Pool.testBit (SIZE : Nat) (s : Pool) (bit_index : Int) : Bool :=
  if (SIZE : Int) ≤ bit_index then false
  else
    Nat.land (s.info (bit_index.ediv 8)) ((1 <<< (bit_index.emod 8).toNat) % 256) != 0

/-- `Pool::setBit`: `info[byte_offset] |= (uint8_t)(1 << bit_index)`. -/
def Pool.setBit (SIZE : Nat) (s : Pool) (bit_index : Int) : Pool :=
  if (SIZE : Int) ≤ bit_index then s
  else
    ⟨fun o =>
       if o = bit_index.ediv 8 then
         Nat.lor (s.info o) ((1 <<< (bit_index.emod 8).toNat) % 256)
       else s.info o,
     s.free_elements_cnt⟩

/-- `Pool::clrBit`: `info[byte_offset] &= ~((uint8_t)(1 << bit_index))`. -/
def Pool.clrBit (SIZE : Nat) (s : Pool) (bit_index : Int) : Pool :=
  if (SIZE : Int) ≤ bit_index then s
  else
    ⟨fun o =>
       if o = bit_index.ediv 8 then
         Nat.land (s.info o) (255 ^^^ (1 <<< (bit_index.emod 8).toNat) % 256)
       else s.info o,
     s.free_elements_cnt⟩

/-- The scan loop of `Pool::palloc` (`for (int i = 0; i < SIZE; i++)`),
written with explicit fuel; `palloc` supplies fuel `SIZE`, which covers
every iteration the C loop can perform. -/
def Pool.pallocLoop (SIZE : Nat) : Pool → Nat → Nat → Option Ptr × Pool
  | s, _, 0 => (none, s)
  | s, i, fuel + 1 =>
    if i < SIZE then
      if Pool.testBit SIZE s (i : Int) then
        (some (Ptr.slot i), ⟨(Pool.clrBit SIZE s (i : Int)).info, s.free_elements_cnt - 1⟩)
      else Pool.pallocLoop SIZE s (i + 1) fuel
    else (none, s)

/-- `Pool::palloc`. -/
def Pool.palloc (SIZE : Nat) (s : Pool) : Option Ptr × Pool :=
  if s.free_elements_cnt ≤ 0 then (none, s) else Pool.pallocLoop SIZE s 0 SIZE

/-- The scan loop of `Pool::free`: on an address match the element is
marked free, the count incremented, and `p` is set to NULL (so no later
iteration can match again); the loop always runs to `SIZE`. -/
def Pool.freeLoop (SIZE : Nat) : Pool → Ptr → Nat → Nat → Pool
  | s, _, _, 0 => s
  | s, p, i, fuel + 1 =>
    if i < SIZE then
      if p = Ptr.slot i then
        Pool.freeLoop SIZE ⟨(Pool.setBit SIZE s (i : Int)).info, s.free_elements_cnt + 1⟩
          Ptr.null (i + 1) fuel
      else Pool.freeLoop SIZE s p (i + 1) fuel
    else s

/-- `Pool::free`. -/
def Pool.free (SIZE : Nat) (s : Pool) (p : Ptr) : Pool :=
  if p = Ptr.null then s else Pool.freeLoop SIZE s p 0 SIZE

/-- `Pool::size`. -/
def Pool.size (s : Pool) : Int := s.free_elements_cnt

/-- `n` consecutive `palloc` calls; collects the returned pointers. -/
def Pool.pallocN (SIZE : Nat) : Pool → Nat → List (Option Ptr) × Pool
  | s, 0 => ([], s)
  | s, n + 1 =>
    let r := Pool.palloc SIZE s
    let rest := Pool.pallocN SIZE r.2 n
    (r.1 :: rest.1, rest.2)

/-- Number of set ("free") bitmap bits among indices `0..n-1`. -/
def freeBits (SIZE : Nat) (s : Pool) : Nat → Nat
  | 0 => 0
  | n + 1 => freeBits SIZE s n + (if Pool.testBit SIZE s (n : Int) then 1 else 0)

/-- Number of set ("free") bitmap bits among indices `0..SIZE-1`. -/
def freeCount (SIZE : Nat) (s : Pool) : Nat := freeBits SIZE s SIZE

/-- Pool states reachable from construction by any sequence of `palloc`
and `free` calls, the latter with arbitrary pointer arguments. -/
inductive Reach (SIZE : Nat) : Pool → Prop
  | init (mem : Int → Nat) : Reach SIZE (Pool.construct SIZE mem)
  | alloc {s} : Reach SIZE s → Reach SIZE (Pool.palloc SIZE s).2
  | dealloc {s} (p : Ptr) : Reach SIZE s → Reach SIZE (Pool.free SIZE s p)

/-- Pool states reachable when `free` is never applied to the address of a
slot that is already free (no double-free); null, foreign and
currently-allocated slot addresses are all allowed. -/
inductive ReachSafe (SIZE : Nat) : Pool → Prop
  | init (mem : Int → Nat) : ReachSafe SIZE (Pool.construct SIZE mem)
  | alloc {s} : ReachSafe SIZE s → ReachSafe SIZE (Pool.palloc SIZE s).2
  | dealloc {s} (p : Ptr) : ReachSafe SIZE s →
      (∀ m, m < SIZE → p = Ptr.slot m → Pool.testBit SIZE s (m : Int) = false) →
      ReachSafe SIZE (Pool.free SIZE s p)

end k2lib

/- ======================= auxiliary arithmetic lemmas ======================= -/

namespace RingBuf

theorem SZ_val : SZ = 18446744073709551616 := by norm_num [SZ]

theorem land_eq_and (a b : Nat) : Nat.land a b = a &&& b := rfl

theorem wsub_lt (a b : Nat) : wsub a b < SZ := by
  simp only [wsub, SZ_val]; omega

theorem wsub_self (a : Nat) : wsub a a = 0 := by
  simp only [wsub, SZ_val]; omega

theorem wsub_zero (a : Nat) (h : a < SZ) : wsub a 0 = a := by
  simp only [SZ_val] at h; simp only [wsub, SZ_val]; omega

theorem wsub_one (n : Nat) (h1 : 1 ≤ n) (h2 : n < SZ) : wsub n 1 = n - 1 := by
  simp only [SZ_val] at h2; simp only [wsub, SZ_val]; omega

theorem wsub_succ_left (a b : Nat) : wsub ((a + 1) % SZ) b = (wsub a b + 1) % SZ := by
  simp only [wsub, SZ_val]; omega

theorem wsub_succ_right (a b : Nat) (ha : a < SZ) (hb : b < SZ) (h : 1 ≤ wsub a b) :
    wsub a ((b + 1) % SZ) = wsub a b - 1 := by
  simp only [SZ_val] at ha hb; simp only [wsub, SZ_val] at h ⊢; omega

theorem land_double (a b x y : Nat) (hx : x < 2) (hy : y < 2) :
    Nat.land (2 * a + x) (2 * b + y) = 2 * Nat.land a b + Nat.land x y := by
  have hxy : (x &&& y) < 2 := lt_of_le_of_lt Nat.and_le_left hx
  simp only [land_eq_and]
  apply Nat.eq_of_testBit_eq
  intro i
  cases i with
  | zero =>
    rw [Nat.testBit_land]
    rw [Nat.testBit_zero, Nat.testBit_zero, Nat.testBit_zero]
    have e1 : (2 * a + x) % 2 = x := by omega
    have e2 : (2 * b + y) % 2 = y := by omega
    have e4 : (2 * (a &&& b) + (x &&& y)) % 2 = x &&& y := by omega
    rw [e1, e2, e4]
    interval_cases x <;> interval_cases y <;> decide
  | succ j =>
    rw [Nat.testBit_land]
    simp only [Nat.testBit_add_one]
    have e1 : (2 * a + x) / 2 = a := by omega
    have e2 : (2 * b + y) / 2 = b := by omega
    have e3 : (2 * (a &&& b) + (x &&& y)) / 2 = a &&& b := by omega
    rw [e1, e2, e3, Nat.testBit_land]

theorem land_pred_self_eq_zero_iff :
    ∀ n : Nat, 0 < n → (Nat.land (n - 1) n = 0 ↔ ∃ k, n = 2 ^ k) := by
  intro n
  induction n using Nat.strong_induction_on with
  | _ n ih =>
    intro hn
    rcases Nat.even_or_odd n with he | ho
    · -- n = 2 * m with m ≥ 1
      obtain ⟨m, hm⟩ := he
      have hm' : n = 2 * m := by omega
      have hmpos : 0 < m := by omega
      have hsub : n - 1 = 2 * (m - 1) + 1 := by omega
      have hkey : Nat.land (n - 1) n = 2 * Nat.land (m - 1) m := by
        rw [hsub, hm']
        have := land_double (m - 1) m 1 0 (by omega) (by omega)
        simpa using this
      rw [hkey]
      constructor
      · intro h0
        have : Nat.land (m - 1) m = 0 := by omega
        obtain ⟨k, hk⟩ := (ih m (by omega) hmpos).1 this
        exact ⟨k + 1, by rw [hm', hk, pow_succ]; ring⟩
      · rintro ⟨k, hk⟩
        cases k with
        | zero => omega
        | succ j =>
          have hmj : m = 2 ^ j := by
            have : (2 : Nat) ^ (j + 1) = 2 * 2 ^ j := by rw [pow_succ]; ring
            omega
          have : Nat.land (m - 1) m = 0 := (ih m (by omega) hmpos).2 ⟨j, hmj⟩
          omega
    · -- n odd
      obtain ⟨m, hm⟩ := ho
      rcases Nat.eq_zero_or_pos m with hm0 | hmpos
      · subst hm0
        simp only [hm]
        constructor
        · intro _; exact ⟨0, by omega⟩
        · intro _; decide
      · have hsub : n - 1 = 2 * m := by omega
        have hkey : Nat.land (n - 1) n = 2 * m := by
          rw [hsub, hm]
          have := land_double m m 0 1 (by omega) (by omega)
          simpa [land_eq_and] using this
        rw [hkey]
        constructor
        · intro h0; omega
        · rintro ⟨k, hk⟩
          cases k with
          | zero => omega
          | succ j =>
            have : (2 : Nat) ^ (j + 1) = 2 * 2 ^ j := by rw [pow_succ]; ring
            omega

theorem pow2chk_iff (n : Nat) (h : n < SZ) :
    pow2chk n = true ↔ (n = 0 ∨ ∃ k, n = 2 ^ k) := by
  rcases Nat.eq_zero_or_pos n with h0 | hpos
  · subst h0
    simp [pow2chk, land_eq_and]
  · rw [pow2chk, wsub_one n hpos h, beq_iff_eq, land_pred_self_eq_zero_iff n hpos]
    constructor
    · intro hk; exact Or.inr hk
    · rintro (h0 | hk); · omega
      · exact hk

/- ===================== registry init: claims C5 and C10 ===================== -/

theorem init_eq (MAX : Nat) (s : Sys) (rbd_nonnull : Bool) (aS aN : Nat) (b : Nat → Nat) :
    ring_buffer_init MAX s rbd_nonnull (some ⟨aS, aN, some b⟩) =
      if s.idx < MAX ∧ rbd_nonnull = true ∧ 0 < aS ∧ pow2chk aN = true then
        (0, ⟨s.idx + 1, fun j => if j = s.idx then ⟨aS, aN, b, 0, 0⟩ else s.rb j⟩,
         some s.idx)
      else (-1, s, none) := by
  simp only [ring_buffer_init]
  split_ifs <;> first | rfl | tauto

/-- C5 counterexample: with the registry not full and every pointer and the
element size valid, element count 0 passes the check `(n-1) & n == 0` and
`ring_buffer_init` succeeds, although 0 is not a power of two. -/
theorem ring_buffer_init_accepts_zero :
    (ring_buffer_init 1 sys0 true (some ⟨1, 0, some fun _ => 0⟩)).1 = 0
    ∧ ¬ ∃ k : Nat, (0 : Nat) = 2 ^ k := by
  constructor
  · decide
  · rintro ⟨k, hk⟩
    have := Nat.two_pow_pos k
    omega

/-- C5 (amended): `ring_buffer_init` returns success and issues a fresh
descriptor exactly when the registry is not full, the descriptor, attribute
and buffer pointers are non-null, the element size is positive, and the
element count is zero or a power of two (the check `(n-1) & n == 0` also
accepts 0); on every failure, including with a NULL attribute pointer, it
returns `(-1, s, none)`: no registry entry, no buffer, and not the
next-index counter is mutated, and `*rbd` is not written. -/
theorem ring_buffer_init_spec (MAX : Nat) (s : Sys) (rbd_nonnull : Bool)
    (a : rb_attr_t) (hsz : a.n_elem < SZ) :
    ((ring_buffer_init MAX s rbd_nonnull (some a)).1 = 0 ↔
      (s.idx < MAX ∧ rbd_nonnull = true ∧ a.buffer ≠ none ∧ 0 < a.s_elem ∧
        (a.n_elem = 0 ∨ ∃ k, a.n_elem = 2 ^ k)))
    ∧ ring_buffer_init MAX s rbd_nonnull none = (-1, s, none)
    ∧ ((ring_buffer_init MAX s rbd_nonnull (some a)).1 ≠ 0 →
        ring_buffer_init MAX s rbd_nonnull (some a) = (-1, s, none)) := by
  obtain ⟨aS, aN, ab⟩ := a
  have hiff := pow2chk_iff aN hsz
  cases ab with
  | none =>
    refine ⟨?_, rfl, ?_⟩
    · constructor
      · intro h
        exfalso
        revert h
        simp only [ring_buffer_init]
        split_ifs <;> simp
      · rintro ⟨_, _, hbuf, _⟩
        exact absurd rfl hbuf
    · intro _
      simp only [ring_buffer_init]
      split_ifs <;> rfl
  | some b =>
    rw [init_eq]
    dsimp only
    by_cases hC : s.idx < MAX ∧ rbd_nonnull = true ∧ 0 < aS ∧ pow2chk aN = true
    · rw [if_pos hC]
      refine ⟨?_, rfl, fun h => absurd rfl h⟩
      constructor
      · intro _
        exact ⟨hC.1, hC.2.1, by simp, hC.2.2.1, hiff.1 hC.2.2.2⟩
      · intro _
        rfl
    · rw [if_neg hC]
      refine ⟨?_, rfl, fun _ => rfl⟩
      constructor
      · intro h
        simp at h
      · rintro ⟨h1, h2, _, h4, h5⟩
        exact absurd ⟨h1, h2, h4, hiff.2 h5⟩ hC

theorem ring_buffer_init_spec_witness :
    ((ring_buffer_init 4 sys0 true (some ⟨2, 8, some fun _ => 0⟩)).1 = 0 ↔
      (sys0.idx < 4 ∧ true = true ∧
        (some (fun _ : Nat => (0 : Nat)) : Option (Nat → Nat)) ≠ none ∧ 0 < 2 ∧
        ((8 : Nat) = 0 ∨ ∃ k, (8 : Nat) = 2 ^ k)))
    ∧ ring_buffer_init 4 sys0 true none = (-1, sys0, none)
    ∧ ((ring_buffer_init 4 sys0 true (some ⟨2, 8, some fun _ => 0⟩)).1 ≠ 0 →
        ring_buffer_init 4 sys0 true (some ⟨2, 8, some fun _ => 0⟩) = (-1, sys0, none)) :=
  ring_buffer_init_spec 4 sys0 true ⟨2, 8, some fun _ => 0⟩ (by decide)

/-- C10: the power-of-two check holds for element count 0, so `init` (with
all other arguments valid and the registry not full) accepts it and issues
a descriptor; every registry entry with `n_elem = 0` and `head - tail == 0`
— an entry initialized with count 0 or a never-initialized zeroed entry —
is simultaneously full and empty, hence every put and every get on it (with
an in-range descriptor) fails and returns the registry state unchanged. -/
theorem ring_buffer_zero_count (MAX : Nat) (s s0 : Sys) (rbd : Nat) (data : List Nat)
    (aS : Nat) (b : Nat → Nat) (hidx : s0.idx < MAX) (haS : 0 < aS) (hrbd : rbd < MAX)
    (hne : (s.rb rbd).n_elem = 0) (hht : wsub (s.rb rbd).head (s.rb rbd).tail = 0) :
    (ring_buffer_init MAX s0 true (some ⟨aS, 0, some b⟩)).1 = 0
    ∧ (ring_buffer_init MAX s0 true (some ⟨aS, 0, some b⟩)).2.2 = some s0.idx
    ∧ _ring_buffer_full (s.rb rbd) = true
    ∧ _ring_buffer_empty (s.rb rbd) = true
    ∧ ring_buffer_put MAX s rbd data = (-1, s)
    ∧ ring_buffer_get MAX s rbd = (-1, s, none) := by
  have hchk : pow2chk 0 = true := by decide
  have hfull : _ring_buffer_full (s.rb rbd) = true := by
    simp [_ring_buffer_full, hht, hne]
  have hempty : _ring_buffer_empty (s.rb rbd) = true := by
    simp [_ring_buffer_empty, hht]
  refine ⟨?_, ?_, hfull, hempty, ?_, ?_⟩
  · rw [init_eq, if_pos ⟨hidx, rfl, haS, hchk⟩]
  · rw [init_eq, if_pos ⟨hidx, rfl, haS, hchk⟩]
  · simp [ring_buffer_put, hfull]
  · simp [ring_buffer_get, hempty]

theorem ring_buffer_zero_count_witness :
    (ring_buffer_init 1 sys0 true (some ⟨1, 0, some fun _ => 0⟩)).1 = 0
    ∧ (ring_buffer_init 1 sys0 true (some ⟨1, 0, some fun _ => 0⟩)).2.2 = some sys0.idx
    ∧ _ring_buffer_full (sys0.rb 0) = true
    ∧ _ring_buffer_empty (sys0.rb 0) = true
    ∧ ring_buffer_put 1 sys0 0 [7] = (-1, sys0)
    ∧ ring_buffer_get 1 sys0 0 = (-1, sys0, none) :=
  ring_buffer_zero_count 1 sys0 sys0 0 [7] 1 (fun _ => 0)
    (by decide) (by decide) (by decide) rfl (by decide)

/- ===================== occupancy invariant: claim C6 ===================== -/

theorem SZ_pos : 0 < SZ := by rw [SZ_val]; omega

theorem rbReach_inv (sE C : Nat) (b0 : Nat → Nat) (hC : C < SZ) {rb : ring_buffer}
    (h : rbReach ⟨sE, C, b0, 0, 0⟩ rb) :
    rb.n_elem = C ∧ rb.head < SZ ∧ rb.tail < SZ ∧ wsub rb.head rb.tail ≤ C := by
  induction h with
  | init =>
    exact ⟨rfl, SZ_pos, SZ_pos, by rw [wsub_self]; omega⟩
  | put d hr ih =>
    obtain ⟨hne, hh, ht, hd⟩ := ih
    rename_i rbp
    by_cases hf : _ring_buffer_full rbp = false
    · have hfull : wsub rbp.head rbp.tail ≠ C := by
        simp only [_ring_buffer_full, hne, beq_eq_false_iff_ne, ne_eq] at hf
        exact hf
      have hlt : wsub rbp.head rbp.tail < C := lt_of_le_of_ne hd hfull
      simp only [rb_put, if_pos hf, putBody]
      refine ⟨hne, Nat.mod_lt _ SZ_pos, ht, ?_⟩
      rw [wsub_succ_left, Nat.mod_eq_of_lt (by omega)]
      omega
    · simp only [rb_put, if_neg hf]
      exact ⟨hne, hh, ht, hd⟩
  | get hr ih =>
    obtain ⟨hne, hh, ht, hd⟩ := ih
    rename_i rbp
    by_cases hf : _ring_buffer_empty rbp = false
    · have hpos : 1 ≤ wsub rbp.head rbp.tail := by
        simp only [_ring_buffer_empty, beq_eq_false_iff_ne, ne_eq] at hf
        omega
      simp only [rb_get, if_pos hf, getBody]
      refine ⟨hne, hh, Nat.mod_lt _ SZ_pos, ?_⟩
      rw [wsub_succ_right _ _ hh ht hpos]
      omega
    · simp only [rb_get, if_neg hf]
      exact ⟨hne, hh, ht, hd⟩

/-- C6: in every state of a ring buffer (initialized with element count `C`)
reachable by any sequence of put and get calls, the `size_t` modular
difference `head - tail` lies in `[0, C]`; given an in-range descriptor
addressing that buffer, `ring_buffer_put` fails exactly when the difference
equals `C` (full) and `ring_buffer_get` fails exactly when it is 0 (empty). -/
theorem ring_buffer_occupancy (sE C : Nat) (b0 : Nat → Nat) (hC : C < SZ)
    (rb : ring_buffer) (hre : rbReach ⟨sE, C, b0, 0, 0⟩ rb)
    (MAX : Nat) (sys : Sys) (rbd : Nat) (data : List Nat)
    (hrbd : rbd < MAX) (hsys : sys.rb rbd = rb) :
    wsub rb.head rb.tail ≤ C
    ∧ ((ring_buffer_put MAX sys rbd data).1 = -1 ↔ wsub rb.head rb.tail = C)
    ∧ ((ring_buffer_get MAX sys rbd).1 = -1 ↔ wsub rb.head rb.tail = 0) := by
  obtain ⟨hne, hh, ht, hd⟩ := rbReach_inv sE C b0 hC hre
  refine ⟨hd, ?_, ?_⟩
  · by_cases hf : wsub rb.head rb.tail = C
    · have hfl : _ring_buffer_full (sys.rb rbd) = true := by
        simp [_ring_buffer_full, hsys, hf, hne]
      simp [ring_buffer_put, hfl, hf]
    · have hfl : _ring_buffer_full (sys.rb rbd) = false := by
        simp only [_ring_buffer_full, hsys, hne, beq_eq_false_iff_ne, ne_eq]
        exact hf
      simp only [ring_buffer_put, if_pos (And.intro hrbd hfl), hf, iff_false]
      decide
  · by_cases hf : wsub rb.head rb.tail = 0
    · have hfl : _ring_buffer_empty (sys.rb rbd) = true := by
        simp [_ring_buffer_empty, hsys, hf]
      simp [ring_buffer_get, hfl, hf]
    · have hfl : _ring_buffer_empty (sys.rb rbd) = false := by
        simp only [_ring_buffer_empty, hsys, beq_eq_false_iff_ne, ne_eq]
        exact hf
      simp only [ring_buffer_get, if_pos (And.intro hrbd hfl), hf, iff_false]
      decide

theorem ring_buffer_occupancy_witness :
    wsub (0 : Nat) (0 : Nat) ≤ 4
    ∧ ((ring_buffer_put 1 (sysW ⟨1, 4, fun _ => 0, 0, 0⟩) 0 [7]).1 = -1 ↔
        wsub (0 : Nat) (0 : Nat) = 4)
    ∧ ((ring_buffer_get 1 (sysW ⟨1, 4, fun _ => 0, 0, 0⟩) 0).1 = -1 ↔
        wsub (0 : Nat) (0 : Nat) = 0) :=
  ring_buffer_occupancy 1 4 (fun _ => 0) (by decide) ⟨1, 4, fun _ => 0, 0, 0⟩
    rbReach.init 1 (sysW ⟨1, 4, fun _ => 0, 0, 0⟩) 0 [7] (by decide) rfl

/- ===================== FIFO behavior: claim C1 ===================== -/

theorem pow_lt_SZ {e : Nat} (he : e < 64) : 2 ^ e < SZ := by
  rw [SZ]
  exact Nat.pow_lt_pow_right (by omega) he

theorem writeBytes_lower (buf : Nat → Nat) (off n : Nat) (d : List Nat) (o : Nat)
    (h : o < off) : writeBytes buf off n d o = buf o := by
  simp only [writeBytes]
  rw [if_neg (by omega)]

theorem readBytes_writeBytes (buf : Nat → Nat) (off n : Nat) (d : List Nat)
    (hd : d.length = n) : readBytes (writeBytes buf off n d) off n = d := by
  apply List.ext_getElem
  · simp [readBytes, hd]
  · intro i h1 h2
    simp only [readBytes, List.getElem_map, List.getElem_range]
    simp only [writeBytes]
    have hi : i < n := by simpa [readBytes] using h1
    rw [if_pos (by omega : off ≤ off + i ∧ off + i < off + n)]
    have e1 : off + i - off = i := by omega
    rw [e1]
    exact List.getD_eq_getElem d 0 h2

theorem bufFrom_lower (sE : Nat) :
    ∀ (ds : List (List Nat)) (b0 : Nat → Nat) (k o : Nat), o < k * sE →
      bufFrom sE b0 k ds o = b0 o := by
  intro ds
  induction ds with
  | nil => intro b0 k o _; rfl
  | cons d ds ih =>
    intro b0 k o h
    have hle : k * sE ≤ (k + 1) * sE := Nat.mul_le_mul_right sE (by omega)
    simp only [bufFrom]
    rw [ih _ (k + 1) o (by omega)]
    exact writeBytes_lower _ _ _ _ _ h

theorem bufFrom_read (sE : Nat) :
    ∀ (ds : List (List Nat)) (b0 : Nat → Nat) (k i : Nat),
      i < ds.length → (∀ d ∈ ds, d.length = sE) →
      readBytes (bufFrom sE b0 k ds) ((k + i) * sE) sE = ds.getD i [] := by
  intro ds
  induction ds with
  | nil => intro b0 k i h _; exact absurd h (by simp)
  | cons d ds ih =>
    intro b0 k i hi hall
    cases i with
    | zero =>
      simp only [bufFrom]
      have hstep : readBytes (bufFrom sE (writeBytes b0 (k * sE) sE d) (k + 1) ds)
            ((k + 0) * sE) sE
          = readBytes (writeBytes b0 (k * sE) sE d) ((k + 0) * sE) sE := by
        simp only [readBytes]
        apply List.map_congr_left
        intro j hj
        have hj' : j < sE := List.mem_range.1 hj
        apply bufFrom_lower
        have hmul : (k + 1) * sE = k * sE + sE := by ring
        have hk0 : (k + 0) * sE = k * sE := by ring
        omega
      rw [hstep, Nat.add_zero]
      rw [readBytes_writeBytes _ _ _ _ (hall d (by simp))]
      rfl
    | succ m =>
      simp only [bufFrom]
      have harr : (k + (m + 1)) * sE = (k + 1 + m) * sE := by ring
      rw [harr]
      rw [ih _ (k + 1) m (by simpa using Nat.lt_of_succ_lt_succ hi)
        (fun x hx => hall x (List.mem_cons_of_mem _ hx))]
      rfl

theorem put_sysW (MAX : Nat) (hM : 1 ≤ MAX) (rb : ring_buffer) (d : List Nat) :
    ring_buffer_put MAX (sysW rb) 0 d = ((rb_put rb d).1, sysW (rb_put rb d).2) := by
  have h0 : (sysW rb).rb 0 = rb := rfl
  by_cases hf : _ring_buffer_full rb = false
  · have hc : (0 : Nat) < MAX ∧ _ring_buffer_full ((sysW rb).rb 0) = false := by
      rw [h0]; exact ⟨hM, hf⟩
    rw [ring_buffer_put, if_pos hc, rb_put, if_pos hf]
    congr 1
    refine Sys.ext rfl ?_
    funext j
    by_cases hj : j = 0 <;> simp [sysW, hj]
  · have hc : ¬((0 : Nat) < MAX ∧ _ring_buffer_full ((sysW rb).rb 0) = false) := by
      rw [h0]; tauto
    rw [ring_buffer_put, if_neg hc, rb_put, if_neg hf]

theorem get_sysW (MAX : Nat) (hM : 1 ≤ MAX) (rb : ring_buffer) :
    ring_buffer_get MAX (sysW rb) 0 =
      ((rb_get rb).1, sysW (rb_get rb).2.1, (rb_get rb).2.2) := by
  have h0 : (sysW rb).rb 0 = rb := rfl
  by_cases hf : _ring_buffer_empty rb = false
  · have hc : (0 : Nat) < MAX ∧ _ring_buffer_empty ((sysW rb).rb 0) = false := by
      rw [h0]; exact ⟨hM, hf⟩
    rw [ring_buffer_get, if_pos hc, rb_get, if_pos hf]
    congr 1
    congr 1
    refine Sys.ext rfl ?_
    funext j
    by_cases hj : j = 0 <;> simp [sysW, hj]
  · have hc : ¬((0 : Nat) < MAX ∧ _ring_buffer_empty ((sysW rb).rb 0) = false) := by
      rw [h0]; tauto
    rw [ring_buffer_get, if_neg hc, rb_get, if_neg hf]

theorem putSeq_ok (MAX : Nat) (hM : 1 ≤ MAX) (e sE : Nat) (he : e < 64) :
    ∀ (ds : List (List Nat)) (k : Nat) (b0 : Nat → Nat),
      k + ds.length ≤ 2 ^ e →
      putSeq MAX 0 (sysW ⟨sE, 2 ^ e, b0, k, 0⟩) ds =
        (List.replicate ds.length 0,
         sysW ⟨sE, 2 ^ e, bufFrom sE b0 k ds, k + ds.length, 0⟩) := by
  intro ds
  induction ds with
  | nil =>
    intro k b0 _
    simp [putSeq, bufFrom]
  | cons d ds ih =>
    intro k b0 hk
    have hC : (2 : Nat) ^ e < SZ := pow_lt_SZ he
    have hklt : k < 2 ^ e := by
      have := ds.length
      simp only [List.length_cons] at hk
      omega
    have hkSZ : k < SZ := lt_trans hklt hC
    have hfull : _ring_buffer_full ⟨sE, 2 ^ e, b0, k, 0⟩ = false := by
      simp only [_ring_buffer_full, beq_eq_false_iff_ne, ne_eq]
      rw [wsub_zero k hkSZ]
      omega
    have hbody : putBody ⟨sE, 2 ^ e, b0, k, 0⟩ d =
        ⟨sE, 2 ^ e, writeBytes b0 (k * sE) sE d, k + 1, 0⟩ := by
      simp only [putBody]
      rw [wsub_one (2 ^ e) (by have := Nat.two_pow_pos e; omega) hC]
      rw [land_eq_and, Nat.and_pow_two_sub_one_of_lt_two_pow hklt]
      have hmod : (k + 1) % SZ = k + 1 := Nat.mod_eq_of_lt (by omega)
      rw [hmod]
    simp only [putSeq]
    rw [put_sysW MAX hM, rb_put, if_pos hfull, hbody]
    rw [ih (k + 1) _ (by simp only [List.length_cons] at hk; omega)]
    simp only [bufFrom, List.length_cons, List.replicate_succ]
    have harr : k + 1 + ds.length = k + (ds.length + 1) := by omega
    rw [harr]

theorem getSeq_ok (MAX : Nat) (hM : 1 ≤ MAX) (e sE : Nat) (he : e < 64) :
    ∀ (j t : Nat) (buf : Nat → Nat),
      t + j ≤ 2 ^ e →
      getSeq MAX 0 (sysW ⟨sE, 2 ^ e, buf, 2 ^ e, t⟩) j =
        ((List.range j).map (fun i => ((0 : Int), some (readBytes buf ((t + i) * sE) sE))),
         sysW ⟨sE, 2 ^ e, buf, 2 ^ e, t + j⟩) := by
  intro j
  induction j with
  | zero =>
    intro t buf _
    simp [getSeq]
  | succ n ih =>
    intro t buf ht
    have hC : (2 : Nat) ^ e < SZ := pow_lt_SZ he
    have htlt : t < 2 ^ e := by omega
    have htSZ : t < SZ := lt_trans htlt hC
    have hempty : _ring_buffer_empty ⟨sE, 2 ^ e, buf, 2 ^ e, t⟩ = false := by
      simp only [_ring_buffer_empty, beq_eq_false_iff_ne, ne_eq]
      simp only [wsub, SZ_val]
      simp only [SZ_val] at hC htSZ
      omega
    have hbody1 : (getBody ⟨sE, 2 ^ e, buf, 2 ^ e, t⟩).1 =
        ⟨sE, 2 ^ e, buf, 2 ^ e, t + 1⟩ := by
      simp only [getBody]
      have hmod : (t + 1) % SZ = t + 1 := Nat.mod_eq_of_lt (by omega)
      rw [hmod]
    have hbody2 : (getBody ⟨sE, 2 ^ e, buf, 2 ^ e, t⟩).2 = readBytes buf (t * sE) sE := by
      simp only [getBody]
      rw [wsub_one (2 ^ e) (by have := Nat.two_pow_pos e; omega) hC]
      rw [land_eq_and, Nat.and_pow_two_sub_one_of_lt_two_pow htlt]
    simp only [getSeq]
    rw [get_sysW MAX hM, rb_get, if_pos hempty, hbody1, hbody2]
    rw [ih (t + 1) buf (by omega)]
    have harr : t + 1 + n = t + (n + 1) := by omega
    rw [harr]
    have hlist : ((0 : Int), some (readBytes buf (t * sE) sE)) ::
          (List.range n).map (fun i => ((0 : Int), some (readBytes buf ((t + 1 + i) * sE) sE)))
        = (List.range (n + 1)).map
            (fun i => ((0 : Int), some (readBytes buf ((t + i) * sE) sE))) := by
      rw [List.range_succ_eq_map, List.map_cons, List.map_map]
      have e0 : t + 0 = t := by omega
      rw [e0]
      refine congrArg (List.cons _) ?_
      apply List.map_congr_left
      intro i _
      have : t + 1 + i = t + (i + 1) := by omega
      simp [Function.comp, this]
    rw [hlist]

/-- C1: for every ring buffer initialized (registry entry 0) with
power-of-two element count `C = 2^e ≥ 1` and element size `sE ≥ 1`,
starting empty: `C` consecutive puts succeed, the `(C+1)`-th put fails and
changes nothing, `C` subsequent gets return the `C` payloads in exactly the
insertion order, a further get fails and changes nothing, and a subsequent
put succeeds again. -/
theorem ring_buffer_fifo (MAX e sE : Nat) (b0 : Nat → Nat) (ds : List (List Nat))
    (dX dF : List Nat) (hM : 1 ≤ MAX) (he : e < 64) (hs : 1 ≤ sE)
    (hlen : ds.length = 2 ^ e) (hall : ∀ d ∈ ds, d.length = sE) :
    C1Spec MAX e sE b0 ds dX dF := by
  have hC : (2 : Nat) ^ e < SZ := pow_lt_SZ he
  have hCpos := Nat.two_pow_pos e
  have hchk : pow2chk (2 ^ e) = true := (pow2chk_iff _ hC).2 (Or.inr ⟨e, rfl⟩)
  have hinit : ring_buffer_init MAX sys0 true (some ⟨sE, 2 ^ e, some b0⟩) =
      (0, sysW ⟨sE, 2 ^ e, b0, 0, 0⟩, some 0) := by
    rw [init_eq, if_pos ⟨hM, rfl, hs, hchk⟩]
    rfl
  have hput := putSeq_ok MAX hM e sE he ds 0 b0 (by omega)
  simp only [C1Spec]
  rw [hinit]
  dsimp only
  rw [hput]
  dsimp only
  simp only [Nat.zero_add]
  rw [hlen]
  have hget := getSeq_ok MAX hM e sE he (2 ^ e) 0 (bufFrom sE b0 0 ds) (by omega)
  rw [hget]
  simp only [Nat.zero_add]
  have hfullF : _ring_buffer_full ⟨sE, 2 ^ e, bufFrom sE b0 0 ds, 2 ^ e, 0⟩ = true := by
    simp [_ring_buffer_full, wsub_zero _ hC]
  have hnotfullG : _ring_buffer_full ⟨sE, 2 ^ e, bufFrom sE b0 0 ds, 2 ^ e, 2 ^ e⟩ = false := by
    simp only [_ring_buffer_full, beq_eq_false_iff_ne, ne_eq, wsub_self]
    omega
  have hemptyG : _ring_buffer_empty ⟨sE, 2 ^ e, bufFrom sE b0 0 ds, 2 ^ e, 2 ^ e⟩ = true := by
    simp [_ring_buffer_empty, wsub_self]
  refine ⟨trivial, trivial, trivial, ?_, ?_, ?_, ?_, ?_⟩
  · rw [ring_buffer_put, if_neg (by simp [sysW, hfullF])]
  · apply List.ext_getElem
    · simp [hlen]
    · intro i h1 h2
      have hi : i < 2 ^ e := by simpa using h1
      simp only [List.getElem_map, List.getElem_range]
      have hr := bufFrom_read sE ds b0 0 i (by omega) hall
      rw [Nat.zero_add] at hr
      rw [hr, List.getD_eq_getElem ds [] (by omega)]
  · rw [ring_buffer_get, if_neg (by simp [sysW, hemptyG])]
  · rw [ring_buffer_get, if_neg (by simp [sysW, hemptyG])]
  · rw [ring_buffer_put, if_pos ⟨hM, by simpa [sysW] using hnotfullG⟩]

theorem ring_buffer_fifo_witness :
    C1Spec 1 2 1 (fun _ => 0) [[97], [98], [99], [100]] [101] [102] :=
  ring_buffer_fifo 1 2 1 (fun _ => 0) [[97], [98], [99], [100]] [101] [102]
    (by decide) (by decide) (by decide) (by decide) (by decide)

end RingBuf

/- ===================== pool bitmap lemmas ===================== -/

namespace k2lib

theorem lor_eq_or (a b : Nat) : Nat.lor a b = a ||| b := rfl

theorem mask_eq (i : Nat) : (1 <<< ((i : Int).emod 8).toNat) % 256 = 2 ^ (i % 8) := by
  have h1 : ((i : Int).emod 8).toNat = i % 8 := rfl
  rw [h1, Nat.shiftLeft_eq, one_mul]
  refine Nat.mod_eq_of_lt ?_
  have h2 : i % 8 < 8 := Nat.mod_lt _ (by omega)
  have h3 : (2 : Nat) ^ (i % 8) ≤ 2 ^ 7 := Nat.pow_le_pow_right (by omega) (by omega)
  norm_num at h3
  omega

theorem land_two_pow_ne_zero (B b : Nat) : (Nat.land B (2 ^ b) != 0) = B.testBit b := by
  rw [RingBuf.land_eq_and]
  cases hB : B.testBit b with
  | true =>
    have h : B &&& 2 ^ b = 2 ^ b := by
      apply Nat.eq_of_testBit_eq
      intro j
      rw [Nat.testBit_land]
      by_cases hj : j = b
      · subst hj; simp [hB]
      · simp [Nat.testBit_two_pow_of_ne (fun hh => hj hh.symm)]
    rw [h]
    simp [bne_iff_ne]
  | false =>
    have h : B &&& 2 ^ b = 0 := by
      apply Nat.eq_of_testBit_eq
      intro j
      rw [Nat.testBit_land]
      by_cases hj : j = b
      · subst hj; simp [hB]
      · simp [Nat.testBit_two_pow_of_ne (fun hh => hj hh.symm)]
    rw [h]
    simp

theorem testBit_nat (SIZE : Nat) (s : Pool) (i : Nat) (h : i < SIZE) :
    Pool.testBit SIZE s (i : Int) = Nat.testBit (s.info ((i / 8 : Nat) : Int)) (i % 8) := by
  rw [Pool.testBit, if_neg (by omega)]
  have hdiv : (i : Int).ediv 8 = ((i / 8 : Nat) : Int) := rfl
  rw [hdiv, mask_eq, land_two_pow_ne_zero]

theorem setBit_eq (SIZE : Nat) (s : Pool) (j : Nat) (hj : j < SIZE) :
    Pool.setBit SIZE s (j : Int) =
      ⟨fun o => if o = ((j / 8 : Nat) : Int)
                then (s.info o) ||| 2 ^ (j % 8) else s.info o,
       s.free_elements_cnt⟩ := by
  rw [Pool.setBit, if_neg (by omega)]
  have hdiv : (j : Int).ediv 8 = ((j / 8 : Nat) : Int) := rfl
  refine Pool.ext ?_ rfl
  funext o
  dsimp only
  rw [hdiv, mask_eq]
  rfl

theorem clrBit_eq (SIZE : Nat) (s : Pool) (j : Nat) (hj : j < SIZE) :
    Pool.clrBit SIZE s (j : Int) =
      ⟨fun o => if o = ((j / 8 : Nat) : Int)
                then (s.info o) &&& (255 ^^^ 2 ^ (j % 8)) else s.info o,
       s.free_elements_cnt⟩ := by
  rw [Pool.clrBit, if_neg (by omega)]
  have hdiv : (j : Int).ediv 8 = ((j / 8 : Nat) : Int) := rfl
  refine Pool.ext ?_ rfl
  funext o
  dsimp only
  rw [hdiv, mask_eq]
  rfl

theorem bit_addr_inj {i j : Nat} (hd : i / 8 = j / 8) (hm : i % 8 = j % 8) : i = j := by
  omega

theorem testBit_setBit (SIZE : Nat) (s : Pool) (j i : Nat) (hj : j < SIZE) (hi : i < SIZE) :
    Pool.testBit SIZE (Pool.setBit SIZE s (j : Int)) (i : Int) =
      (if i = j then true else Pool.testBit SIZE s (i : Int)) := by
  rw [setBit_eq SIZE s j hj, testBit_nat SIZE _ i hi, testBit_nat SIZE s i hi]
  dsimp only
  by_cases hb : i / 8 = j / 8
  · rw [if_pos (show ((i / 8 : Nat) : Int) = ((j / 8 : Nat) : Int) from by exact_mod_cast hb)]
    rw [Nat.testBit_lor]
    by_cases hij : i = j
    · subst hij
      rw [if_pos rfl]
      simp [Nat.testBit_two_pow_self]
    · have hm : i % 8 ≠ j % 8 := fun hm => hij (bit_addr_inj hb hm)
      rw [if_neg hij]
      simp [Nat.testBit_two_pow_of_ne (fun hh => hm hh.symm)]
  · have hne : ((i / 8 : Nat) : Int) ≠ ((j / 8 : Nat) : Int) := by exact_mod_cast hb
    rw [if_neg hne, if_neg (fun hh => hb (by rw [hh]))]

theorem testBit_clrBit (SIZE : Nat) (s : Pool) (j i : Nat) (hj : j < SIZE) (hi : i < SIZE) :
    Pool.testBit SIZE (Pool.clrBit SIZE s (j : Int)) (i : Int) =
      (if i = j then false else Pool.testBit SIZE s (i : Int)) := by
  rw [clrBit_eq SIZE s j hj, testBit_nat SIZE _ i hi, testBit_nat SIZE s i hi]
  dsimp only
  by_cases hb : i / 8 = j / 8
  · rw [if_pos (show ((i / 8 : Nat) : Int) = ((j / 8 : Nat) : Int) from by exact_mod_cast hb)]
    rw [Nat.testBit_land, Nat.testBit_xor]
    have h255 : (255 : Nat).testBit (i % 8) = true := by
      have h2 : i % 8 < 8 := Nat.mod_lt _ (by omega)
      rw [show (255 : Nat) = 2 ^ 8 - 1 by norm_num, Nat.testBit_two_pow_sub_one]
      simpa using h2
    rw [h255]
    by_cases hij : i = j
    · subst hij
      rw [if_pos rfl]
      simp [Nat.testBit_two_pow_self]
    · have hm : i % 8 ≠ j % 8 := fun hm => hij (bit_addr_inj hb hm)
      rw [if_neg hij]
      simp [Nat.testBit_two_pow_of_ne (fun hh => hm hh.symm)]
  · have hne : ((i / 8 : Nat) : Int) ≠ ((j / 8 : Nat) : Int) := by exact_mod_cast hb
    rw [if_neg hne, if_neg (fun hh => hb (by rw [hh]))]

theorem testBit_construct (SIZE : Nat) (mem : Int → Nat) (i : Nat) (h : i < SIZE) :
    Pool.testBit SIZE (Pool.construct SIZE mem) (i : Int) = true := by
  rw [testBit_nat SIZE _ i h]
  have hbyte : (Pool.construct SIZE mem).info ((i / 8 : Nat) : Int) = 255 := by
    rw [Pool.construct]
    dsimp only
    rw [if_pos]
    constructor
    · exact_mod_cast Nat.zero_le _
    · have hdb : i / 8 < NO_BYTES SIZE := by
        rw [NO_BYTES, BITS_IN_UINT8]
        omega
      exact_mod_cast hdb
  rw [hbyte]
  have h2 : i % 8 < 8 := Nat.mod_lt _ (by omega)
  rw [show (255 : Nat) = 2 ^ 8 - 1 by norm_num, Nat.testBit_two_pow_sub_one]
  simpa using h2

theorem setBit_cnt (SIZE : Nat) (s : Pool) (i : Int) :
    (Pool.setBit SIZE s i).free_elements_cnt = s.free_elements_cnt := by
  rw [Pool.setBit]
  split <;> rfl

theorem clrBit_cnt (SIZE : Nat) (s : Pool) (i : Int) :
    (Pool.clrBit SIZE s i).free_elements_cnt = s.free_elements_cnt := by
  rw [Pool.clrBit]
  split <;> rfl

theorem testBit_info_only (SIZE : Nat) (s : Pool) (c : Int) (i : Int) :
    Pool.testBit SIZE ⟨s.info, c⟩ i = Pool.testBit SIZE s i := rfl

/- ===================== pool loop characterizations ===================== -/

theorem pallocLoop_none (SIZE : Nat) (s : Pool) :
    ∀ (fuel i : Nat),
      (∀ j, i ≤ j → j < SIZE → Pool.testBit SIZE s (j : Int) = false) →
      Pool.pallocLoop SIZE s i fuel = (none, s) := by
  intro fuel
  induction fuel with
  | zero => intro i _; rfl
  | succ f ih =>
    intro i h
    rw [Pool.pallocLoop]
    by_cases hi : i < SIZE
    · rw [if_pos hi, h i le_rfl hi]
      rw [if_neg (by simp)]
      exact ih (i + 1) (fun j h1 h2 => h j (by omega) h2)
    · rw [if_neg hi]

theorem pallocLoop_find (SIZE : Nat) (s : Pool) :
    ∀ (fuel i m : Nat), i ≤ m → m < SIZE → SIZE ≤ i + fuel →
      Pool.testBit SIZE s (m : Int) = true →
      (∀ j, i ≤ j → j < m → Pool.testBit SIZE s (j : Int) = false) →
      Pool.pallocLoop SIZE s i fuel =
        (some (Ptr.slot m),
         ⟨(Pool.clrBit SIZE s (m : Int)).info, s.free_elements_cnt - 1⟩) := by
  intro fuel
  induction fuel with
  | zero => intro i m h1 h2 h3 _ _; omega
  | succ f ih =>
    intro i m him hm hfu htb hlow
    rw [Pool.pallocLoop]
    rw [if_pos (by omega : i < SIZE)]
    by_cases him' : i = m
    · subst him'
      rw [htb]
      rw [if_pos rfl]
    · rw [hlow i le_rfl (by omega)]
      rw [if_neg (by simp)]
      exact ih (i + 1) m (by omega) hm (by omega) htb (fun j h1 h2 => hlow j (by omega) h2)

theorem palloc_found (SIZE : Nat) (s : Pool) (m : Nat) (hm : m < SIZE)
    (hcnt : 0 < s.free_elements_cnt)
    (htb : Pool.testBit SIZE s (m : Int) = true)
    (hlow : ∀ j, j < m → Pool.testBit SIZE s (j : Int) = false) :
    Pool.palloc SIZE s =
      (some (Ptr.slot m),
       ⟨(Pool.clrBit SIZE s (m : Int)).info, s.free_elements_cnt - 1⟩) := by
  rw [Pool.palloc, if_neg (by omega)]
  exact pallocLoop_find SIZE s SIZE 0 m (by omega) hm (by omega) htb (fun j _ h2 => hlow j h2)

theorem palloc_exhausted (SIZE : Nat) (s : Pool)
    (h : ∀ j, j < SIZE → Pool.testBit SIZE s (j : Int) = false) :
    Pool.palloc SIZE s = (none, s) := by
  rw [Pool.palloc]
  split_ifs with hc
  · rfl
  · exact pallocLoop_none SIZE s SIZE 0 (fun j _ h2 => h j h2)

theorem freeLoop_nomatch (SIZE : Nat) (p : Ptr) :
    ∀ (fuel i : Nat) (s : Pool),
      (∀ j, i ≤ j → j < SIZE → p ≠ Ptr.slot j) →
      Pool.freeLoop SIZE s p i fuel = s := by
  intro fuel
  induction fuel with
  | zero => intro i s _; rfl
  | succ f ih =>
    intro i s h
    rw [Pool.freeLoop]
    by_cases hi : i < SIZE
    · rw [if_pos hi, if_neg (h i le_rfl hi)]
      exact ih (i + 1) s (fun j h1 h2 => h j (by omega) h2)
    · rw [if_neg hi]

theorem freeLoop_match (SIZE : Nat) :
    ∀ (fuel i m : Nat) (s : Pool), i ≤ m → m < SIZE → SIZE ≤ i + fuel →
      Pool.freeLoop SIZE s (Ptr.slot m) i fuel =
        ⟨(Pool.setBit SIZE s (m : Int)).info, s.free_elements_cnt + 1⟩ := by
  intro fuel
  induction fuel with
  | zero => intro i m s h1 h2 h3; omega
  | succ f ih =>
    intro i m s him hm hfu
    rw [Pool.freeLoop]
    rw [if_pos (by omega : i < SIZE)]
    by_cases him' : (Ptr.slot m : Ptr) = Ptr.slot i
    · have hmi : m = i := by simpa using him'
      subst hmi
      rw [if_pos rfl]
      exact freeLoop_nomatch SIZE Ptr.null f (m + 1) _ (fun j _ _ => by simp)
    · rw [if_neg him']
      have hne : i ≠ m := fun hh => him' (by rw [hh])
      exact ih (i + 1) m s (by omega) hm (by omega)

theorem free_slot (SIZE : Nat) (s : Pool) (m : Nat) (hm : m < SIZE) :
    Pool.free SIZE s (Ptr.slot m) =
      ⟨(Pool.setBit SIZE s (m : Int)).info, s.free_elements_cnt + 1⟩ := by
  rw [Pool.free, if_neg (by simp)]
  exact freeLoop_match SIZE SIZE 0 m s (by omega) hm (by omega)

theorem free_noslot (SIZE : Nat) (s : Pool) (p : Ptr)
    (h : ∀ j, j < SIZE → p ≠ Ptr.slot j) : Pool.free SIZE s p = s := by
  rw [Pool.free]
  split_ifs with h0
  · rfl
  · exact freeLoop_nomatch SIZE p SIZE 0 s (fun j _ h2 => h j h2)

/- ===================== bit counting ===================== -/

theorem freeBits_le (SIZE : Nat) (s : Pool) : ∀ n, freeBits SIZE s n ≤ n := by
  intro n
  induction n with
  | zero => simp [freeBits]
  | succ m ih =>
    rw [freeBits]
    split <;> omega

theorem freeBits_congr (SIZE : Nat) (s t : Pool) :
    ∀ n : Nat, (∀ j, j < n → Pool.testBit SIZE t (j : Int) = Pool.testBit SIZE s (j : Int)) →
      freeBits SIZE t n = freeBits SIZE s n := by
  intro n
  induction n with
  | zero => intro _; rfl
  | succ m ih =>
    intro h
    rw [freeBits, freeBits, ih (fun j hj => h j (by omega)), h m (by omega)]

theorem freeBits_all (SIZE : Nat) (s : Pool) :
    ∀ n : Nat, (∀ j, j < n → Pool.testBit SIZE s (j : Int) = true) →
      freeBits SIZE s n = n := by
  intro n
  induction n with
  | zero => intro _; rfl
  | succ m ih =>
    intro h
    rw [freeBits, ih (fun j hj => h j (by omega)), h m (by omega)]
    simp

theorem freeBits_pos (SIZE : Nat) (s : Pool) (m : Nat)
    (htb : Pool.testBit SIZE s (m : Int) = true) :
    ∀ n, m < n → 1 ≤ freeBits SIZE s n := by
  intro n
  induction n with
  | zero => intro h; omega
  | succ k ih =>
    intro h
    rw [freeBits]
    by_cases hk : m = k
    · subst hk; rw [htb]; simp
    · have := ih (by omega)
      omega

theorem freeBits_lt_of_false (SIZE : Nat) (s : Pool) (m : Nat)
    (htb : Pool.testBit SIZE s (m : Int) = false) :
    ∀ n, m < n → freeBits SIZE s n < n := by
  intro n
  induction n with
  | zero => intro h; omega
  | succ k ih =>
    intro h
    rw [freeBits]
    by_cases hk : m = k
    · subst hk
      rw [htb]
      have := freeBits_le SIZE s m
      simp
      omega
    · have h1 := ih (by omega)
      split <;> omega

theorem freeBits_flip (SIZE : Nat) (s t : Pool) (m : Nat) (old b : Bool)
    (hold : Pool.testBit SIZE s (m : Int) = old)
    (hnew : Pool.testBit SIZE t (m : Int) = b) :
    ∀ n, m < n →
      (∀ j, j < n → j ≠ m → Pool.testBit SIZE t (j : Int) = Pool.testBit SIZE s (j : Int)) →
      freeBits SIZE t n + (if old then 1 else 0) =
        freeBits SIZE s n + (if b then 1 else 0) := by
  intro n
  induction n with
  | zero => intro h; omega
  | succ k ih =>
    intro h hagree
    by_cases hk : m = k
    · subst hk
      rw [freeBits, freeBits, hold, hnew]
      rw [freeBits_congr SIZE s t m (fun j hj => hagree j (by omega) (by omega))]
      cases old <;> cases b <;> simp <;> omega
    · have h1 := ih (by omega) (fun j hj hjm => hagree j (by omega) hjm)
      rw [freeBits, freeBits, hagree k (by omega) (fun hh => hk hh.symm)]
      split <;> omega

theorem freeCount_info_only (SIZE : Nat) (s : Pool) (c : Int) :
    freeCount SIZE ⟨s.info, c⟩ = freeCount SIZE s := by
  exact freeBits_congr SIZE s ⟨s.info, c⟩ SIZE (fun j _ => rfl)

theorem freeBits_none (SIZE : Nat) (s : Pool) :
    ∀ n : Nat, (∀ j, j < n → Pool.testBit SIZE s (j : Int) = false) →
      freeBits SIZE s n = 0 := by
  intro n
  induction n with
  | zero => intro _; rfl
  | succ m ih =>
    intro h
    rw [freeBits, ih (fun j hj => h j (by omega)), h m (by omega)]
    simp

theorem freeCount_setBit_true (SIZE : Nat) (s : Pool) (m : Nat) (hm : m < SIZE)
    (h : Pool.testBit SIZE s (m : Int) = true) :
    freeCount SIZE (Pool.setBit SIZE s (m : Int)) = freeCount SIZE s := by
  have hflip := freeBits_flip SIZE s (Pool.setBit SIZE s (m : Int)) m true true h
    (by rw [testBit_setBit SIZE s m m hm hm]; simp) SIZE hm
    (fun j hj hjm => by rw [testBit_setBit SIZE s m j hm hj, if_neg hjm])
  simpa [freeCount] using hflip

theorem freeCount_setBit_false (SIZE : Nat) (s : Pool) (m : Nat) (hm : m < SIZE)
    (h : Pool.testBit SIZE s (m : Int) = false) :
    freeCount SIZE (Pool.setBit SIZE s (m : Int)) = freeCount SIZE s + 1 := by
  have hflip := freeBits_flip SIZE s (Pool.setBit SIZE s (m : Int)) m false true h
    (by rw [testBit_setBit SIZE s m m hm hm]; simp) SIZE hm
    (fun j hj hjm => by rw [testBit_setBit SIZE s m j hm hj, if_neg hjm])
  simp only [if_true, if_false] at hflip
  simpa [freeCount] using hflip

theorem freeCount_clrBit_true (SIZE : Nat) (s : Pool) (m : Nat) (hm : m < SIZE)
    (h : Pool.testBit SIZE s (m : Int) = true) :
    freeCount SIZE (Pool.clrBit SIZE s (m : Int)) + 1 = freeCount SIZE s := by
  have hflip := freeBits_flip SIZE s (Pool.clrBit SIZE s (m : Int)) m true false h
    (by rw [testBit_clrBit SIZE s m m hm hm]; simp) SIZE hm
    (fun j hj hjm => by rw [testBit_clrBit SIZE s m j hm hj, if_neg hjm])
  simp only [if_true, if_false] at hflip
  simpa [freeCount] using hflip

theorem freeCount_construct (SIZE : Nat) (mem : Int → Nat) :
    freeCount SIZE (Pool.construct SIZE mem) = SIZE :=
  freeBits_all SIZE _ SIZE (fun j hj => testBit_construct SIZE mem j hj)

/- ===================== pool reachability invariants ===================== -/

theorem exists_free_bit (SIZE : Nat) (s : Pool) (h : 1 ≤ freeCount SIZE s) :
    ∃ m, m < SIZE ∧ Pool.testBit SIZE s (m : Int) = true := by
  by_contra hex
  push_neg at hex
  have hall : ∀ j, j < SIZE → Pool.testBit SIZE s (j : Int) = false := by
    intro j hj
    cases htj : Pool.testBit SIZE s (j : Int) with
    | false => rfl
    | true => exact absurd htj (hex j hj)
  have := freeBits_none SIZE s SIZE hall
  rw [freeCount] at h
  omega

theorem least_free_bit (SIZE : Nat) (s : Pool)
    (hex : ∃ m, m < SIZE ∧ Pool.testBit SIZE s (m : Int) = true) :
    ∃ m, m < SIZE ∧ Pool.testBit SIZE s (m : Int) = true ∧
      ∀ j, j < m → Pool.testBit SIZE s (j : Int) = false := by
  refine ⟨Nat.find hex, (Nat.find_spec hex).1, (Nat.find_spec hex).2, ?_⟩
  intro j hj
  have hmin := Nat.find_min hex hj
  cases htj : Pool.testBit SIZE s (j : Int) with
  | false => rfl
  | true => exact absurd ⟨lt_trans hj (Nat.find_spec hex).1, htj⟩ hmin

theorem Reach_cnt_ge (SIZE : Nat) {s : Pool} (h : Reach SIZE s) :
    (freeCount SIZE s : Int) ≤ s.free_elements_cnt := by
  induction h with
  | init mem =>
    rw [freeCount_construct]
    exact le_of_eq rfl
  | alloc hr ih =>
    rename_i sp
    by_cases hc : sp.free_elements_cnt ≤ 0
    · rw [Pool.palloc, if_pos hc]
      exact ih
    · by_cases hex : ∃ m, m < SIZE ∧ Pool.testBit SIZE sp (m : Int) = true
      · obtain ⟨m, hm, htb, hlow⟩ := least_free_bit SIZE sp hex
        rw [palloc_found SIZE sp m hm (by omega) htb hlow]
        dsimp only
        rw [freeCount_info_only SIZE (Pool.clrBit SIZE sp (m : Int))]
        have hC := freeCount_clrBit_true SIZE sp m hm htb
        omega
      · push_neg at hex
        have hall : ∀ j, j < SIZE → Pool.testBit SIZE sp (j : Int) = false := by
          intro j hj
          cases htj : Pool.testBit SIZE sp (j : Int) with
          | false => rfl
          | true => exact absurd htj (hex j hj)
        rw [palloc_exhausted SIZE sp hall]
        exact ih
  | dealloc p hr ih =>
    rename_i sp
    cases p with
    | null =>
      rw [Pool.free, if_pos rfl]
      exact ih
    | foreign k =>
      rw [free_noslot SIZE sp _ (fun j _ => by simp)]
      exact ih
    | slot m =>
      by_cases hm : m < SIZE
      · rw [free_slot SIZE sp m hm]
        dsimp only
        rw [freeCount_info_only SIZE (Pool.setBit SIZE sp (m : Int))]
        cases htb : Pool.testBit SIZE sp (m : Int) with
        | true =>
          rw [freeCount_setBit_true SIZE sp m hm htb]
          omega
        | false =>
          rw [freeCount_setBit_false SIZE sp m hm htb]
          push_cast
          omega
      · rw [free_noslot SIZE sp _
          (fun j hj => by simp only [ne_eq, Ptr.slot.injEq]; omega)]
        exact ih

theorem ReachSafe_inv (SIZE : Nat) {s : Pool} (h : ReachSafe SIZE s) :
    s.free_elements_cnt = (freeCount SIZE s : Int)
    ∧ s.free_elements_cnt ≤ (SIZE : Int) := by
  induction h with
  | init mem =>
    rw [freeCount_construct]
    exact ⟨rfl, le_of_eq rfl⟩
  | alloc hr ih =>
    rename_i sp
    obtain ⟨ihe, ihle⟩ := ih
    by_cases hc : sp.free_elements_cnt ≤ 0
    · rw [Pool.palloc, if_pos hc]
      exact ⟨ihe, ihle⟩
    · have hfc : 1 ≤ freeCount SIZE sp := by omega
      obtain ⟨m, hm, htb, hlow⟩ := least_free_bit SIZE sp (exists_free_bit SIZE sp hfc)
      rw [palloc_found SIZE sp m hm (by omega) htb hlow]
      dsimp only
      rw [freeCount_info_only SIZE (Pool.clrBit SIZE sp (m : Int))]
      have hC := freeCount_clrBit_true SIZE sp m hm htb
      constructor
      · omega
      · omega
  | dealloc p hr hok ih =>
    rename_i sp
    obtain ⟨ihe, ihle⟩ := ih
    cases p with
    | null =>
      rw [Pool.free, if_pos rfl]
      exact ⟨ihe, ihle⟩
    | foreign k =>
      rw [free_noslot SIZE sp _ (fun j _ => by simp)]
      exact ⟨ihe, ihle⟩
    | slot m =>
      by_cases hm : m < SIZE
      · have hfb : Pool.testBit SIZE sp (m : Int) = false := hok m hm rfl
        rw [free_slot SIZE sp m hm]
        dsimp only
        rw [freeCount_info_only SIZE (Pool.setBit SIZE sp (m : Int))]
        rw [freeCount_setBit_false SIZE sp m hm hfb]
        have hlt : freeCount SIZE sp < SIZE := freeBits_lt_of_false SIZE sp m hfb SIZE hm
        constructor
        · push_cast
          omega
        · omega
      · rw [free_noslot SIZE sp _
          (fun j hj => by simp only [ne_eq, Ptr.slot.injEq]; omega)]
        exact ⟨ihe, ihle⟩

/- ===================== pool claims ===================== -/

theorem pallocN_stage (SIZE : Nat) :
    ∀ (j k : Nat) (s : Pool), k + j ≤ SIZE →
      s.free_elements_cnt = (SIZE : Int) - (k : Int) →
      (∀ i, i < SIZE → Pool.testBit SIZE s (i : Int) = decide (k ≤ i)) →
      (Pool.pallocN SIZE s j).1 = (List.range' k j).map (fun i => some (Ptr.slot i))
      ∧ (Pool.pallocN SIZE s j).2.free_elements_cnt = (SIZE : Int) - ((k + j : Nat) : Int)
      ∧ (∀ i, i < SIZE →
          Pool.testBit SIZE (Pool.pallocN SIZE s j).2 (i : Int) = decide (k + j ≤ i)) := by
  intro j
  induction j with
  | zero =>
    intro k s hk hcnt hbits
    refine ⟨rfl, by simpa using hcnt, fun i hi => by simpa using hbits i hi⟩
  | succ n ih =>
    intro k s hk hcnt hbits
    have hkS : k < SIZE := by omega
    have hcnt' : 0 < s.free_elements_cnt := by
      rw [hcnt]
      have : (k : Int) < (SIZE : Int) := by exact_mod_cast hkS
      omega
    have htbk : Pool.testBit SIZE s (k : Int) = true := by
      rw [hbits k hkS]
      simp
    have hlow : ∀ jj, jj < k → Pool.testBit SIZE s (jj : Int) = false := by
      intro jj hjj
      rw [hbits jj (by omega)]
      simp
      omega
    have hpal := palloc_found SIZE s k hkS hcnt' htbk hlow
    have hbits' : ∀ i, i < SIZE →
        Pool.testBit SIZE
          (⟨(Pool.clrBit SIZE s (k : Int)).info, s.free_elements_cnt - 1⟩ : Pool)
          (i : Int) = decide (k + 1 ≤ i) := by
      intro i hi
      rw [testBit_info_only, testBit_clrBit SIZE s k i hkS hi]
      by_cases hik : i = k
      · subst hik
        simp
      · rw [if_neg hik, hbits i hi]
        exact decide_eq_decide.2 (by omega)
    have hcnt'' :
        (⟨(Pool.clrBit SIZE s (k : Int)).info, s.free_elements_cnt - 1⟩ : Pool).free_elements_cnt
          = (SIZE : Int) - ((k + 1 : Nat) : Int) := by
      dsimp only
      rw [hcnt]
      push_cast
      ring
    obtain ⟨ih1, ih2, ih3⟩ := ih (k + 1) _ (by omega) hcnt'' hbits'
    refine ⟨?_, ?_, ?_⟩
    · rw [Pool.pallocN]
      dsimp only
      rw [hpal]
      dsimp only
      rw [ih1, List.range'_succ, List.map_cons]
    · rw [Pool.pallocN]
      dsimp only
      rw [hpal]
      dsimp only
      rw [ih2]
      push_cast
      ring
    · intro i hi
      rw [Pool.pallocN]
      dsimp only
      rw [hpal]
      dsimp only
      rw [ih3 i hi]
      exact decide_eq_decide.2 (by omega)

/-- C2: for every pool capacity `N ≥ 1`: immediately after construction
`size() = N`; the next `N` allocations succeed and return the `N` pairwise
distinct slot addresses (slot 0, 1, ..., N-1 in that order); the
`(N+1)`-th allocation returns NULL (`none`), and at that point
`size() = 0`. -/
theorem pool_alloc_all (N : Nat) (mem : Int → Nat) (hN : 1 ≤ N) :
    Pool.size (Pool.construct N mem) = (N : Int)
    ∧ (Pool.pallocN N (Pool.construct N mem) N).1
        = (List.range N).map (fun i => some (Ptr.slot i))
    ∧ ((Pool.pallocN N (Pool.construct N mem) N).1).Nodup
    ∧ (Pool.palloc N (Pool.pallocN N (Pool.construct N mem) N).2).1 = none
    ∧ (Pool.palloc N (Pool.pallocN N (Pool.construct N mem) N).2).2.free_elements_cnt = 0 := by
  obtain ⟨h1, h2, h3⟩ := pallocN_stage N N 0 (Pool.construct N mem) (by omega)
    (by simp [Pool.construct])
    (fun i hi => by rw [testBit_construct N mem i hi]; simp)
  have hzero : (Pool.pallocN N (Pool.construct N mem) N).2.free_elements_cnt = 0 := by
    rw [h2]
    push_cast
    ring
  have hres : (Pool.pallocN N (Pool.construct N mem) N).1
      = (List.range N).map (fun i => some (Ptr.slot i)) := by
    rw [h1, List.range_eq_range' N]
  refine ⟨rfl, hres, ?_, ?_, ?_⟩
  · rw [hres]
    refine List.Nodup.map ?_ (List.nodup_range N)
    intro a b hab
    simpa using hab
  · rw [Pool.palloc, if_pos (le_of_eq hzero)]
  · rw [Pool.palloc, if_pos (le_of_eq hzero)]
    exact hzero

theorem pool_alloc_all_witness :
    Pool.size (Pool.construct 2 fun _ => 0) = ((2 : Nat) : Int)
    ∧ (Pool.pallocN 2 (Pool.construct 2 fun _ => 0) 2).1
        = (List.range 2).map (fun i => some (Ptr.slot i))
    ∧ ((Pool.pallocN 2 (Pool.construct 2 fun _ => 0) 2).1).Nodup
    ∧ (Pool.palloc 2 (Pool.pallocN 2 (Pool.construct 2 fun _ => 0) 2).2).1 = none
    ∧ (Pool.palloc 2 (Pool.pallocN 2 (Pool.construct 2 fun _ => 0) 2).2).2.free_elements_cnt
        = 0 :=
  pool_alloc_all 2 (fun _ => 0) (by decide)

theorem lor_two_pow_of_testBit (B b : Nat) (h : B.testBit b = true) : B ||| 2 ^ b = B := by
  apply Nat.eq_of_testBit_eq
  intro j
  rw [Nat.testBit_lor]
  by_cases hj : j = b
  · subst hj
    simp [h]
  · simp [Nat.testBit_two_pow_of_ne (fun hh => hj hh.symm)]

theorem setBit_noop (SIZE : Nat) (s : Pool) (m : Nat) (hm : m < SIZE)
    (h : Pool.testBit SIZE s (m : Int) = true) :
    (Pool.setBit SIZE s (m : Int)).info = s.info := by
  rw [testBit_nat SIZE s m hm] at h
  rw [setBit_eq SIZE s m hm]
  funext o
  dsimp only
  by_cases ho : o = ((m / 8 : Nat) : Int)
  · rw [if_pos ho, ho, lor_two_pow_of_testBit _ _ h]
  · rw [if_neg ho]

/-- C3 counterexample: on a freshly constructed pool of capacity 1 (slot 0
free, `free_count = 1`), `free(&elements[0])` is a double free — the claim
says it is a silent no-op, but the code increments `free_elements_cnt`
to 2 (the bitmap is unchanged). -/
theorem pool_double_free_changes_count :
    (Pool.construct 1 fun _ => 0).free_elements_cnt = 1
    ∧ Pool.testBit 1 (Pool.construct 1 fun _ => 0) ((0 : Nat) : Int) = true
    ∧ (Pool.free 1 (Pool.construct 1 fun _ => 0) (Ptr.slot 0)).free_elements_cnt = 2 := by
  refine ⟨rfl, by decide, by decide⟩

/-- C3 (amended): `free(p)` with `p` null, or `p` not the address of any of
the `N` slots (a pointer never issued by the pool), is a silent no-op:
bitmap, `free_count` and every slot state are unchanged.  But `free` of the
address of a slot that is already free (a double free) is NOT a no-op: it
leaves the bitmap bytes unchanged and increments `free_count`. -/
theorem pool_free_unmatched (N : Nat) (s : Pool) (p : Ptr) (m : Nat)
    (hp : p = Ptr.null ∨ ∀ j, j < N → p ≠ Ptr.slot j)
    (hm : m < N) (hbit : Pool.testBit N s (m : Int) = true) :
    Pool.free N s p = s
    ∧ Pool.free N s (Ptr.slot m) = ⟨s.info, s.free_elements_cnt + 1⟩ := by
  constructor
  · rcases hp with h | h
    · rw [h, Pool.free, if_pos rfl]
    · exact free_noslot N s p h
  · rw [free_slot N s m hm, setBit_noop N s m hm hbit]

theorem pool_free_unmatched_witness :
    Pool.free 2 (Pool.construct 2 fun _ => 0) (Ptr.foreign 5) = Pool.construct 2 (fun _ => 0)
    ∧ Pool.free 2 (Pool.construct 2 fun _ => 0) (Ptr.slot 1)
        = ⟨(Pool.construct 2 fun _ => 0).info,
           (Pool.construct 2 fun _ => 0).free_elements_cnt + 1⟩ :=
  pool_free_unmatched 2 (Pool.construct 2 fun _ => 0) (Ptr.foreign 5) 1
    (Or.inr (by decide)) (by decide) (by decide)

/-- C4 counterexample: the state reached from a constructed pool of
capacity 1 by the single call `free(&elements[0])` (an arbitrary-pointer
deallocation sequence) has `free_count = 2`, while the bitmap has exactly
one set bit among indices `0..N-1` and `N = 1` — so `free_count` is
neither equal to the set-bit count nor within `[0, N]`. -/
theorem pool_count_invariant_counterexample :
    (Pool.free 1 (Pool.construct 1 fun _ => 0) (Ptr.slot 0)).free_elements_cnt = 2
    ∧ freeCount 1 (Pool.free 1 (Pool.construct 1 fun _ => 0) (Ptr.slot 0)) = 1
    ∧ ¬((Pool.free 1 (Pool.construct 1 fun _ => 0) (Ptr.slot 0)).free_elements_cnt
          ≤ ((1 : Nat) : Int)) := by
  refine ⟨by decide, by decide, by decide⟩

/-- C4 (amended): in every pool state reachable from construction by
allocations and deallocations in which `free` is never applied to the
address of a slot that is already free (no double free; null and foreign
pointers are allowed), `free_count` lies in `[0, N]` and equals the number
of set (free) bitmap bits at indices `0..N-1`. -/
theorem pool_count_invariant (N : Nat) (s : Pool) (h : ReachSafe N s) :
    0 ≤ s.free_elements_cnt
    ∧ s.free_elements_cnt ≤ (N : Int)
    ∧ s.free_elements_cnt = (freeCount N s : Int) := by
  obtain ⟨h1, h2⟩ := ReachSafe_inv N h
  refine ⟨?_, h2, h1⟩
  rw [h1]
  exact_mod_cast Nat.zero_le _

theorem pool_count_invariant_witness :
    0 ≤ (Pool.palloc 1 (Pool.construct 1 fun _ => 0)).2.free_elements_cnt
    ∧ (Pool.palloc 1 (Pool.construct 1 fun _ => 0)).2.free_elements_cnt ≤ ((1 : Nat) : Int)
    ∧ (Pool.palloc 1 (Pool.construct 1 fun _ => 0)).2.free_elements_cnt
        = (freeCount 1 (Pool.palloc 1 (Pool.construct 1 fun _ => 0)).2 : Int) :=
  pool_count_invariant 1 (Pool.palloc 1 (Pool.construct 1 fun _ => 0)).2
    (ReachSafe.alloc (ReachSafe.init (fun _ => 0)))

/-- C7: in every reachable pool state (arbitrary pointer arguments to
`free` allowed), if slot `m` is free and every lower-indexed slot is used,
`palloc` returns the address of slot `m` — the free slot with the lowest
index; and freeing a currently allocated slot address increases `size()`
by exactly 1 and marks exactly that slot free again (so that address is
again eligible for allocation). -/
theorem pool_lowest_free (N : Nat) (s : Pool) (m : Nat) (hre : Reach N s) (hm : m < N) :
    (Pool.testBit N s (m : Int) = true →
      (∀ j, j < m → Pool.testBit N s (j : Int) = false) →
      (Pool.palloc N s).1 = some (Ptr.slot m))
    ∧ (Pool.testBit N s (m : Int) = false →
        Pool.size (Pool.free N s (Ptr.slot m)) = Pool.size s + 1
        ∧ Pool.testBit N (Pool.free N s (Ptr.slot m)) (m : Int) = true) := by
  constructor
  · intro htb hlow
    have hge := Reach_cnt_ge N hre
    have h1 : 1 ≤ freeCount N s := freeBits_pos N s m htb N hm
    have hcnt : 0 < s.free_elements_cnt := by omega
    rw [palloc_found N s m hm hcnt htb hlow]
  · intro hfb
    rw [free_slot N s m hm]
    refine ⟨rfl, ?_⟩
    rw [testBit_info_only, testBit_setBit N s m m hm hm]
    simp

theorem pool_lowest_free_witness :
    ((Pool.palloc 3 (Pool.free 3 (Pool.free 3
        (Pool.palloc 3 (Pool.palloc 3 (Pool.palloc 3
          (Pool.construct 3 fun _ => 0)).2).2).2
        (Ptr.slot 2)) (Ptr.slot 0))).1 = some (Ptr.slot 0))
    ∧ (Pool.size (Pool.free 3
        (Pool.palloc 3 (Pool.palloc 3 (Pool.palloc 3
          (Pool.construct 3 fun _ => 0)).2).2).2 (Ptr.slot 2))
        = Pool.size (Pool.palloc 3 (Pool.palloc 3 (Pool.palloc 3
            (Pool.construct 3 fun _ => 0)).2).2).2 + 1
       ∧ Pool.testBit 3 (Pool.free 3
           (Pool.palloc 3 (Pool.palloc 3 (Pool.palloc 3
             (Pool.construct 3 fun _ => 0)).2).2).2 (Ptr.slot 2)) ((2 : Nat) : Int)
           = true) := by
  constructor
  · exact (pool_lowest_free 3 _ 0
      (Reach.dealloc _ (Reach.dealloc _ (Reach.alloc (Reach.alloc (Reach.alloc
        (Reach.init _)))))) (by decide)).1 (by decide)
      (fun j hj => absurd hj (by omega))
  · exact (pool_lowest_free 3 _ 2
      (Reach.alloc (Reach.alloc (Reach.alloc (Reach.init _)))) (by decide)).2 (by decide)

/-- C8 counterexample: negative bit indices are not guarded.  On a pool of
capacity 1 whose surrounding memory holds the byte 1 just below `info`
(offset -1 — in the object layout this is the last byte of the element
storage), `testBit(-8)` computes byte offset -1, bit 0, reads that
out-of-bounds byte, and returns `true` — the claim says every index
outside `[0, N)` returns `false` with no out-of-bounds access. -/
theorem pool_testBit_negative :
    Pool.testBit 1 (Pool.construct 1 fun o => if o = -1 then 1 else 0) (-8) = true := by
  decide

/-- C8 (amended): for every index `i ≥ N`, `test(i)` returns `false` and
`set(i)` / `clear(i)` return the state completely unchanged, with no byte
accessed; indices `i < 0` are not guarded (see the counterexample: the
functions then access a byte below the array). -/
theorem pool_bit_out_of_range (N : Nat) (s : Pool) (i : Int) (h : (N : Int) ≤ i) :
    Pool.testBit N s i = false ∧ Pool.setBit N s i = s ∧ Pool.clrBit N s i = s := by
  refine ⟨?_, ?_, ?_⟩
  · rw [Pool.testBit, if_pos h]
  · rw [Pool.setBit, if_pos h]
  · rw [Pool.clrBit, if_pos h]

theorem pool_bit_out_of_range_witness :
    Pool.testBit 4 (Pool.construct 4 fun _ => 0) 9 = false
    ∧ Pool.setBit 4 (Pool.construct 4 fun _ => 0) 9 = Pool.construct 4 (fun _ => 0)
    ∧ Pool.clrBit 4 (Pool.construct 4 fun _ => 0) 9 = Pool.construct 4 (fun _ => 0) :=
  pool_bit_out_of_range 4 (Pool.construct 4 fun _ => 0) 9 (by decide)

end k2lib
